import Mathlib

/-!
Verification of the scanparse program (src/pa1/src/main.rs): a lexical
scanner, a recursive-descent LL(1) parser for the grammar

  EXPR     -> TERM EXPRDASH
  EXPRDASH -> PLUS TERM EXPRDASH | epsilon
  TERM     -> FACTOR TERMDASH
  TERMDASH -> STAR FACTOR TERMDASH | epsilon
  FACTOR   -> BOPEN EXPR BCLOSE | IDENTIFIER | NUMBER

and a breadth-first parse-tree renderer.  Every definition below is a
shallow embedding of the corresponding Rust item; machine state (the
scanner cursor, the parser cursor) is passed explicitly, fallible
operations return an explicit result type, and the out-of-bounds indexing
branch of the parser is modelled as a distinct outcome.
-/

set_option maxHeartbeats 1000000

namespace ScanParse

/-- Embedding of the Rust enum Token (main.rs lines 6-15). -/
inductive Token where
  | Identifier (s : String)
  | Number (s : String)
  | Plus
  | Star
  | Bopen
  | Bclose
  | Eof
deriving DecidableEq

/-- Embedding of Token::to_parse_tree_string (main.rs lines 18-28). -/
def Token.to_parse_tree_string : Token → String
  | .Identifier s => "IDENTIFIER(" ++ s ++ ")"
  | .Number s => "NUMBER(" ++ s ++ ")"
  | .Plus => "PLUS"
  | .Star => "STAR"
  | .Bopen => "BOPEN"
  | .Bclose => "BCLOSE"
  | .Eof => "EOF"

/-- Rendering of a Token by the derived Debug instance, as interpolated
into the parser's error messages by the Rust format strings. -/
def tokenDebug : Token → String
  | .Identifier s => "Identifier(\"" ++ s ++ "\")"
  | .Number s => "Number(\"" ++ s ++ "\")"
  | .Plus => "Plus"
  | .Star => "Star"
  | .Bopen => "Bopen"
  | .Bclose => "Bclose"
  | .Eof => "Eof"

/-- Embedding of char::is_ascii_whitespace as used by skip_whitespace
(main.rs line 56): space, tab, newline, form feed, carriage return. -/
def is_ascii_whitespace (c : Char) : Bool :=
  c = ' ' || c = '\t' || c = '\n' || c = '\x0C' || c = '\r'

/-- Embedding of char::is_ascii_digit (main.rs line 72). -/
def is_ascii_digit (c : Char) : Bool :=
  '0' ≤ c && c ≤ '9'

/-- Embedding of char::is_ascii_alphabetic (main.rs line 79). -/
def is_ascii_alphabetic (c : Char) : Bool :=
  ('A' ≤ c && c ≤ 'Z') || ('a' ≤ c && c ≤ 'z')

/-- Embedding of Scanner::skip_whitespace (main.rs lines 55-59).  The
scanner state is the list of characters not yet consumed; the advancing
loop is the dropWhile over that list. -/
def skip_whitespace (cs : List Char) : List Char :=
  cs.dropWhile is_ascii_whitespace

/-- Embedding of Scanner::scan_token (main.rs lines 61-91).  Returns the
scanned token together with the remaining characters, or none on the
unrecognized-character branch (line 86-89).  The two maximal-munch loops
are the takeWhile / dropWhile pairs. -/
def scan_token (cs : List Char) : Option (Token × List Char) :=
  match skip_whitespace cs with
  | [] => some (Token.Eof, [])
  | c :: rest =>
    if c = '+' then some (Token.Plus, rest)
    else if c = '*' then some (Token.Star, rest)
    else if c = '(' then some (Token.Bopen, rest)
    else if c = ')' then some (Token.Bclose, rest)
    else if is_ascii_digit c then
      some (Token.Number (String.mk (c :: rest.takeWhile is_ascii_digit)),
            rest.dropWhile is_ascii_digit)
    else if is_ascii_alphabetic c then
      some (Token.Identifier (String.mk (c :: rest.takeWhile is_ascii_alphabetic)),
            rest.dropWhile is_ascii_alphabetic)
    else none

/-- Embedding of the loop of Scanner::scan_all (main.rs lines 93-108),
instrumented with the cause of the break: the Bool is true when the loop
ended by pushing Eof (line 100-102) and false when it ended on the
unrecognized-character branch (line 104).  The Rust loop needs no fuel;
here fuel makes the recursion structural, and scanAllR_stable below shows
any fuel greater than the number of characters gives the same result. -/
def scanAllR : Nat → List Char → List Token × Bool
  | 0, _ => ([], false)
  | fuel + 1, cs =>
    match scan_token cs with
    | none => ([], false)
    | some (t, rest) =>
      match t with
      | Token.Eof => ([Token.Eof], true)
      | _ =>
        let r := scanAllR fuel rest
        (t :: r.1, r.2)

/-- Embedding of Scanner::scan_all (main.rs lines 93-108): the token
sequence produced for one input line. -/
def scan_all (cs : List Char) : List Token :=
  (scanAllR (cs.length + 1) cs).1

/-- Success of scanning one line: true when the scan_all loop ended by
pushing Eof, false when it aborted on an unrecognized character. -/
def scan_ok (cs : List Char) : Bool :=
  (scanAllR (cs.length + 1) cs).2

/-- Embedding of the check the driver main performs on the scanned tokens
(main.rs line 301): a line is excluded from parsing when the token list is
empty or does not end in Eof. -/
def driver_skips (ts : List Token) : Bool :=
  ts.isEmpty || !(ts.getLast? == some Token.Eof)

/-- Embedding of the Rust enum ParseNode (main.rs lines 111-115). -/
inductive ParseNode where
  | NonTerminal (name : String) (children : List ParseNode)
  | Terminal (t : Token)
  | Epsilon

mutual

/-- Number of nodes of a parse tree. -/
def ParseNode.size : ParseNode → Nat
  | .NonTerminal _ cs => 1 + sizeList cs
  | .Terminal _ => 1
  | .Epsilon => 1

/-- Total number of nodes of a list of parse trees. -/
def ParseNode.sizeList : List ParseNode → Nat
  | [] => 0
  | n :: ns => n.size + sizeList ns

end

/-- Outcome of a parser operation: a value together with the new cursor
position, a parse error message (the Err branch of the Rust Result), the
out-of-bounds indexing branch of Parser::peek / Parser::consume (main.rs
lines 166-173, a panic in Rust), or fuel exhaustion of the embedding. -/
inductive PResult (α : Type) where
  | ok (val : α) (next : Nat)
  | perr (msg : String)
  | panic
  | noFuel
deriving DecidableEq

/-- Sequencing of parser operations: the embedding of the Rust question
mark operator, with the panic and fuel outcomes propagated as well. -/
def PResult.bind {α β : Type} (r : PResult α) (f : α → Nat → PResult β) : PResult β :=
  match r with
  | .ok a n => f a n
  | .perr m => .perr m
  | .panic => .panic
  | .noFuel => .noFuel

/-- Names of the five recursive-descent subroutines of Parser. -/
inductive NT where
  | expr
  | exprdash
  | term
  | termdash
  | factor

/-- Embedding of the five mutually recursive Parser subroutines
parse_expr, parse_exprdash, parse_term, parse_termdash, parse_factor
(main.rs lines 185-242) as one fuel-indexed dispatcher; the fuel only
makes the mutual recursion structural, and parse_noFuel below shows a fuel
linear in the token count is always sufficient.  The parser state is the
token list ts together with the cursor i; peek is the lookup at position i
and consume advances the cursor past the token just peeked. -/
def parseNT (fuel : Nat) (tag : NT) (ts : List Token) (i : Nat) : PResult ParseNode :=
  match fuel with
  | 0 => .noFuel
  | fuel' + 1 =>
    match tag with
    | .expr =>
      (parseNT fuel' .term ts i).bind fun t n =>
      (parseNT fuel' .exprdash ts n).bind fun e m =>
      .ok (.NonTerminal "EXPR" [t, e]) m
    | .exprdash =>
      match ts[i]? with
      | none => .panic
      | some tok =>
        match tok with
        | .Plus =>
          (parseNT fuel' .term ts (i + 1)).bind fun tm n =>
          (parseNT fuel' .exprdash ts n).bind fun ed m =>
          .ok (.NonTerminal "EXPRDASH" [.Terminal tok, tm, ed]) m
        | .Bclose => .ok (.NonTerminal "EXPRDASH" [.Epsilon]) i
        | .Eof => .ok (.NonTerminal "EXPRDASH" [.Epsilon]) i
        | _ => .perr ("Parse Error in EXPRDASH: Expected '+', ')', or EOF, found " ++ tokenDebug tok)
    | .term =>
      (parseNT fuel' .factor ts i).bind fun f n =>
      (parseNT fuel' .termdash ts n).bind fun td m =>
      .ok (.NonTerminal "TERM" [f, td]) m
    | .termdash =>
      match ts[i]? with
      | none => .panic
      | some tok =>
        match tok with
        | .Star =>
          (parseNT fuel' .factor ts (i + 1)).bind fun f n =>
          (parseNT fuel' .termdash ts n).bind fun td m =>
          .ok (.NonTerminal "TERMDASH" [.Terminal tok, f, td]) m
        | .Plus => .ok (.NonTerminal "TERMDASH" [.Epsilon]) i
        | .Bclose => .ok (.NonTerminal "TERMDASH" [.Epsilon]) i
        | .Eof => .ok (.NonTerminal "TERMDASH" [.Epsilon]) i
        | _ => .perr ("Parse Error in TERMDASH: Expected '*', '+', ')', or EOF, found " ++ tokenDebug tok)
    | .factor =>
      match ts[i]? with
      | none => .panic
      | some tok =>
        match tok with
        | .Bopen =>
          (parseNT fuel' .expr ts (i + 1)).bind fun e n =>
          match ts[n]? with
          | none => .panic
          | some tok2 =>
            if tok2 = Token.Bclose then
              .ok (.NonTerminal "FACTOR" [.Terminal tok, e, .Terminal tok2]) (n + 1)
            else
              .perr ("Parse Error in FACTOR: Expected ')', found " ++ tokenDebug tok2)
        | .Identifier _ => .ok (.NonTerminal "FACTOR" [.Terminal tok]) (i + 1)
        | .Number _ => .ok (.NonTerminal "FACTOR" [.Terminal tok]) (i + 1)
        | _ => .perr ("Parse Error in FACTOR: Expected '(', Identifier, or Number, found " ++ tokenDebug tok)

/-- Minimal number of tokens a subroutine consumes on success: parse_expr,
parse_term and parse_factor always consume at least one token, while
parse_exprdash and parse_termdash may take their epsilon production. -/
def minStep : NT → Nat
  | .expr => 1
  | .term => 1
  | .factor => 1
  | .exprdash => 0
  | .termdash => 0

/-- Fuel sufficient for a subroutine running with r tokens left: three
units per remaining token plus a constant accounting for the
expr-term-factor call chain. -/
def needFuel : NT → Nat → Nat
  | .expr, r => 3 * r + 3
  | .term, r => 3 * r + 2
  | .factor, r => 3 * r + 1
  | .exprdash, r => 3 * r + 1
  | .termdash, r => 3 * r + 1

/-- Precondition of claim C1 on a token sequence: non-empty, ending in
Eof, with Eof occurring nowhere else. -/
def wfTokens (ts : List Token) : Bool :=
  (ts.getLast? == some Token.Eof) && ts.dropLast.all (fun t => !(t == Token.Eof))

/-- Embedding of Parser::parse_expr (main.rs lines 185-190). -/
def parse_expr (fuel : Nat) (ts : List Token) (i : Nat) : PResult ParseNode :=
  parseNT fuel .expr ts i

/-- Embedding of Parser::parse_exprdash (main.rs lines 192-201). -/
def parse_exprdash (fuel : Nat) (ts : List Token) (i : Nat) : PResult ParseNode :=
  parseNT fuel .exprdash ts i

/-- Embedding of Parser::parse_term (main.rs lines 203-208). -/
def parse_term (fuel : Nat) (ts : List Token) (i : Nat) : PResult ParseNode :=
  parseNT fuel .term ts i

/-- Embedding of Parser::parse_termdash (main.rs lines 210-219). -/
def parse_termdash (fuel : Nat) (ts : List Token) (i : Nat) : PResult ParseNode :=
  parseNT fuel .termdash ts i

/-- Embedding of Parser::parse_factor (main.rs lines 221-242). -/
def parse_factor (fuel : Nat) (ts : List Token) (i : Nat) : PResult ParseNode :=
  parseNT fuel .factor ts i

/-- Embedding of the top-level Parser::parse (main.rs lines 175-183):
parse one EXPR from the start, then require and consume Eof, otherwise
report the extra-token error. -/
def parse (fuel : Nat) (ts : List Token) : PResult ParseNode :=
  (parseNT fuel .expr ts 0).bind fun root n =>
  match ts[n]? with
  | none => .panic
  | some tok =>
    if tok = Token.Eof then .ok root (n + 1)
    else .perr ("Parse Error: Extra token found starting at " ++ tokenDebug tok)

/-- Label pushed onto level_output for one node by ParseNode::to_bfs_string
(main.rs lines 129-142). -/
def nodeLabel : ParseNode → String
  | .NonTerminal name _ => name
  | .Terminal t => t.to_parse_tree_string
  | .Epsilon => "EPSILON"

/-- Children pushed onto the next-level queue for one node by
ParseNode::to_bfs_string (main.rs lines 130-141): the children of a
NonTerminal, nothing for Terminal and Epsilon. -/
def childrenOf : ParseNode → List ParseNode
  | .NonTerminal _ cs => cs
  | .Terminal _ => []
  | .Epsilon => []

/-- Contents of the next-level queue after one pass of the inner loop of
ParseNode::to_bfs_string over the current-level queue (main.rs lines
128-143), preserving left-to-right order. -/
def nextLevel : List ParseNode → List ParseNode
  | [] => []
  | n :: ns => childrenOf n ++ nextLevel ns

/-- Embedding of the outer loop of ParseNode::to_bfs_string (main.rs lines
124-151): while the current-level queue is non-empty, append the
space-joined labels of the level and a newline, then continue with the
next-level queue.  The fuel only makes the recursion structural;
to_bfs_string_fuel_stable below shows any fuel at least the total node
count gives the same result. -/
def to_bfs_string_fuel : Nat → List ParseNode → String
  | 0, _ => ""
  | fuel + 1, queue =>
    match queue with
    | [] => ""
    | q :: qs =>
      String.intercalate " " ((q :: qs).map nodeLabel) ++ "\n"
        ++ to_bfs_string_fuel fuel (nextLevel (q :: qs))

/-- Embedding of ParseNode::to_bfs_string (main.rs lines 118-153). -/
def ParseNode.to_bfs_string (root : ParseNode) : String :=
  to_bfs_string_fuel root.size [root]

/-- Breadth-first levels of label lists produced by the same traversal as
to_bfs_string: one list of labels per non-empty level, in left-to-right
order. -/
def bfs_levels_fuel : Nat → List ParseNode → List (List String)
  | 0, _ => []
  | fuel + 1, queue =>
    match queue with
    | [] => []
    | q :: qs =>
      (q :: qs).map nodeLabel :: bfs_levels_fuel fuel (nextLevel (q :: qs))

/-- Rendering of a list of levels as to_bfs_string renders them: each
level's labels joined by single spaces, each level terminated by one
newline, no blank lines. -/
def renderLevels : List (List String) → String
  | [] => ""
  | l :: ls => String.intercalate " " l ++ "\n" ++ renderLevels ls

/-- Breadth-first levels of labels of a parse tree. -/
def bfsLevels (root : ParseNode) : List (List String) :=
  bfs_levels_fuel root.size [root]

/-- Check of one production's shape, as claimed for trees built by the
parser: EXPR and TERM always have exactly 2 children; EXPRDASH and
TERMDASH have 3 children or the single child Epsilon; FACTOR has 3
children or a single Terminal child; no other NonTerminal name occurs.
Every accepted shape has a non-empty children list. -/
def productionShape (name : String) (cs : List ParseNode) : Bool :=
  if name = "EXPR" || name = "TERM" then cs.length == 2
  else if name = "EXPRDASH" || name = "TERMDASH" then
    cs.length == 3 ||
      (match cs with
       | [.Epsilon] => true
       | _ => false)
  else if name = "FACTOR" then
    cs.length == 3 ||
      (match cs with
       | [.Terminal _] => true
       | _ => false)
  else false

mutual

/-- Structural invariant of the parse trees built by the parser: every
NonTerminal node satisfies productionShape, recursively. -/
def wellShaped : ParseNode → Bool
  | .NonTerminal name cs => productionShape name cs && wellShapedList cs
  | .Terminal _ => true
  | .Epsilon => true

/-- wellShaped for every member of a list of trees. -/
def wellShapedList : List ParseNode → Bool
  | [] => true
  | c :: cs => wellShaped c && wellShapedList cs

end

/-- Parse tree built by the parser from the single-identifier line x. -/
def xTree : ParseNode :=
  .NonTerminal "EXPR"
    [.NonTerminal "TERM"
      [.NonTerminal "FACTOR" [.Terminal (.Identifier "x")],
       .NonTerminal "TERMDASH" [.Epsilon]],
     .NonTerminal "EXPRDASH" [.Epsilon]]

theorem skip_whitespace_length (cs : List Char) :
    (skip_whitespace cs).length ≤ cs.length :=
  List.Sublist.length_le (List.dropWhile_sublist _)

theorem scan_token_length {cs rest : List Char} {t : Token}
    (h : scan_token cs = some (t, rest)) (ht : t ≠ Token.Eof) :
    rest.length < cs.length := by
  rw [scan_token] at h
  cases hsk : skip_whitespace cs with
  | nil =>
    rw [hsk] at h
    simp only [Option.some.injEq, Prod.mk.injEq] at h
    exact absurd h.1.symm ht
  | cons c cs' =>
    have hlen : cs'.length < cs.length := by
      have h1 := skip_whitespace_length cs
      rw [hsk] at h1
      simp only [List.length_cons] at h1
      omega
    rw [hsk] at h
    simp only [] at h
    split_ifs at h <;>
      simp only [Option.some.injEq, Prod.mk.injEq, reduceCtorEq] at h
    all_goals try ( obtain ⟨-, rfl⟩ := h; omega )
    all_goals
      obtain ⟨-, rfl⟩ := h
      exact lt_of_le_of_lt (List.Sublist.length_le (List.dropWhile_sublist _)) hlen

theorem scanAllR_stable : ∀ (n f g : Nat) (cs : List Char), cs.length ≤ n →
    cs.length < f → cs.length < g → scanAllR f cs = scanAllR g cs := by
  intro n
  induction n with
  | zero =>
    intro f g cs hn hf hg
    have hcs : cs = [] := List.length_eq_zero.mp (Nat.le_zero.mp hn)
    subst hcs
    obtain ⟨f', rfl⟩ : ∃ k, f = k + 1 := ⟨f - 1, by omega⟩
    obtain ⟨g', rfl⟩ : ∃ k, g = k + 1 := ⟨g - 1, by omega⟩
    rfl
  | succ m ih =>
    intro f g cs hn hf hg
    obtain ⟨f', rfl⟩ : ∃ k, f = k + 1 := ⟨f - 1, by omega⟩
    obtain ⟨g', rfl⟩ : ∃ k, g = k + 1 := ⟨g - 1, by omega⟩
    rw [scanAllR, scanAllR]
    cases hst : scan_token cs with
    | none => rfl
    | some pr =>
      obtain ⟨t, rest⟩ := pr
      cases t with
      | Eof => rfl
      | Identifier s =>
        have hr : rest.length < cs.length := scan_token_length hst (by simp)
        simp only []
        rw [ih f' g' rest (by omega) (by omega) (by omega)]
      | Number s =>
        have hr : rest.length < cs.length := scan_token_length hst (by simp)
        simp only []
        rw [ih f' g' rest (by omega) (by omega) (by omega)]
      | Plus =>
        have hr : rest.length < cs.length := scan_token_length hst (by simp)
        simp only []
        rw [ih f' g' rest (by omega) (by omega) (by omega)]
      | Star =>
        have hr : rest.length < cs.length := scan_token_length hst (by simp)
        simp only []
        rw [ih f' g' rest (by omega) (by omega) (by omega)]
      | Bopen =>
        have hr : rest.length < cs.length := scan_token_length hst (by simp)
        simp only []
        rw [ih f' g' rest (by omega) (by omega) (by omega)]
      | Bclose =>
        have hr : rest.length < cs.length := scan_token_length hst (by simp)
        simp only []
        rw [ih f' g' rest (by omega) (by omega) (by omega)]

theorem scanAllR_shape : ∀ (fuel : Nat) (cs : List Char),
    ((scanAllR fuel cs).2 = true →
      ∃ pre, (scanAllR fuel cs).1 = pre ++ [Token.Eof] ∧ Token.Eof ∉ pre)
    ∧ ((scanAllR fuel cs).2 = false → Token.Eof ∉ (scanAllR fuel cs).1) := by
  intro fuel
  induction fuel with
  | zero => intro cs; exact ⟨fun h => by simp [scanAllR] at h, fun _ => by simp [scanAllR]⟩
  | succ f ih =>
    intro cs
    rw [scanAllR]
    cases hst : scan_token cs with
    | none => exact ⟨fun h => by simp at h, fun _ => by simp⟩
    | some pr =>
      obtain ⟨t, rest⟩ := pr
      cases t with
      | Eof =>
        refine ⟨fun _ => ⟨[], by simp⟩, fun h => by simp at h⟩
      | Identifier s =>
        simp only []
        refine ⟨fun h => ?_, fun h => ?_⟩
        · obtain ⟨pre, hpre, hmem⟩ := (ih rest).1 h
          exact ⟨Token.Identifier s :: pre, by simp [hpre], by simp [hmem]⟩
        · simpa using (ih rest).2 h
      | Number s =>
        simp only []
        refine ⟨fun h => ?_, fun h => ?_⟩
        · obtain ⟨pre, hpre, hmem⟩ := (ih rest).1 h
          exact ⟨Token.Number s :: pre, by simp [hpre], by simp [hmem]⟩
        · simpa using (ih rest).2 h
      | Plus =>
        simp only []
        refine ⟨fun h => ?_, fun h => ?_⟩
        · obtain ⟨pre, hpre, hmem⟩ := (ih rest).1 h
          exact ⟨Token.Plus :: pre, by simp [hpre], by simp [hmem]⟩
        · simpa using (ih rest).2 h
      | Star =>
        simp only []
        refine ⟨fun h => ?_, fun h => ?_⟩
        · obtain ⟨pre, hpre, hmem⟩ := (ih rest).1 h
          exact ⟨Token.Star :: pre, by simp [hpre], by simp [hmem]⟩
        · simpa using (ih rest).2 h
      | Bopen =>
        simp only []
        refine ⟨fun h => ?_, fun h => ?_⟩
        · obtain ⟨pre, hpre, hmem⟩ := (ih rest).1 h
          exact ⟨Token.Bopen :: pre, by simp [hpre], by simp [hmem]⟩
        · simpa using (ih rest).2 h
      | Bclose =>
        simp only []
        refine ⟨fun h => ?_, fun h => ?_⟩
        · obtain ⟨pre, hpre, hmem⟩ := (ih rest).1 h
          exact ⟨Token.Bclose :: pre, by simp [hpre], by simp [hmem]⟩
        · simpa using (ih rest).2 h

theorem scan_token_lexeme {cs rest : List Char} {t : Token}
    (h : scan_token cs = some (t, rest)) :
    (∀ s, t = Token.Identifier s → s.data.all is_ascii_alphabetic = true)
    ∧ (∀ s, t = Token.Number s → s.data.all is_ascii_digit = true) := by
  rw [scan_token] at h
  cases hsk : skip_whitespace cs with
  | nil =>
    rw [hsk] at h
    simp only [Option.some.injEq, Prod.mk.injEq] at h
    obtain ⟨rfl, -⟩ := h
    exact ⟨(fun s hs => nomatch hs), (fun s hs => nomatch hs)⟩
  | cons c cs' =>
    rw [hsk] at h
    simp only [] at h
    split_ifs at h with h1 h2 h3 h4 h5 h6 <;>
      simp only [Option.some.injEq, Prod.mk.injEq, reduceCtorEq] at h
    · obtain ⟨rfl, -⟩ := h
      exact ⟨(fun s hs => nomatch hs), (fun s hs => nomatch hs)⟩
    · obtain ⟨rfl, -⟩ := h
      exact ⟨(fun s hs => nomatch hs), (fun s hs => nomatch hs)⟩
    · obtain ⟨rfl, -⟩ := h
      exact ⟨(fun s hs => nomatch hs), (fun s hs => nomatch hs)⟩
    · obtain ⟨rfl, -⟩ := h
      exact ⟨(fun s hs => nomatch hs), (fun s hs => nomatch hs)⟩
    · obtain ⟨rfl, -⟩ := h
      refine ⟨(fun s hs => nomatch hs), fun s hs => ?_⟩
      cases hs
      simp only [String.data]
      rw [List.all_eq_true]
      intro x hx
      rcases List.mem_cons.mp hx with rfl | hx
      · exact h5
      · exact List.mem_takeWhile_imp hx
    · obtain ⟨rfl, -⟩ := h
      refine ⟨fun s hs => ?_, fun s hs => nomatch hs⟩
      cases hs
      simp only [String.data]
      rw [List.all_eq_true]
      intro x hx
      rcases List.mem_cons.mp hx with rfl | hx
      · exact h6
      · exact List.mem_takeWhile_imp hx

theorem scanAllR_lexeme : ∀ (fuel : Nat) (cs : List Char) (t : Token),
    t ∈ (scanAllR fuel cs).1 →
    (∀ s, t = Token.Identifier s → s.data.all is_ascii_alphabetic = true)
    ∧ (∀ s, t = Token.Number s → s.data.all is_ascii_digit = true) := by
  intro fuel
  induction fuel with
  | zero => intro cs t h; simp [scanAllR] at h
  | succ f ih =>
    intro cs t h
    rw [scanAllR] at h
    cases hst : scan_token cs with
    | none => rw [hst] at h; simp at h
    | some pr =>
      obtain ⟨u, rest⟩ := pr
      rw [hst] at h
      cases u <;> simp only [List.mem_cons, List.mem_singleton] at h
      case Eof =>
        rcases h with rfl | h
        · exact ⟨(fun s hs => nomatch hs), (fun s hs => nomatch hs)⟩
        · simp at h
      all_goals
        rcases h with rfl | h
        · exact scan_token_lexeme hst
        · exact ih rest t h

theorem parseNT_zero (tag : NT) (ts : List Token) (i : Nat) :
    parseNT 0 tag ts i = .noFuel := rfl

theorem parseNT_expr_eq (f : Nat) (ts : List Token) (i : Nat) :
    parseNT (f + 1) .expr ts i
      = (parseNT f .term ts i).bind fun t n =>
        (parseNT f .exprdash ts n).bind fun e m =>
        .ok (.NonTerminal "EXPR" [t, e]) m := rfl

theorem parseNT_exprdash_eq (f : Nat) (ts : List Token) (i : Nat) :
    parseNT (f + 1) .exprdash ts i
      = match ts[i]? with
        | none => .panic
        | some tok =>
          match tok with
          | .Plus =>
            (parseNT f .term ts (i + 1)).bind fun tm n =>
            (parseNT f .exprdash ts n).bind fun ed m =>
            .ok (.NonTerminal "EXPRDASH" [.Terminal tok, tm, ed]) m
          | .Bclose => .ok (.NonTerminal "EXPRDASH" [.Epsilon]) i
          | .Eof => .ok (.NonTerminal "EXPRDASH" [.Epsilon]) i
          | _ => .perr ("Parse Error in EXPRDASH: Expected '+', ')', or EOF, found " ++ tokenDebug tok) := rfl

theorem parseNT_term_eq (f : Nat) (ts : List Token) (i : Nat) :
    parseNT (f + 1) .term ts i
      = (parseNT f .factor ts i).bind fun fc n =>
        (parseNT f .termdash ts n).bind fun td m =>
        .ok (.NonTerminal "TERM" [fc, td]) m := rfl

theorem parseNT_termdash_eq (f : Nat) (ts : List Token) (i : Nat) :
    parseNT (f + 1) .termdash ts i
      = match ts[i]? with
        | none => .panic
        | some tok =>
          match tok with
          | .Star =>
            (parseNT f .factor ts (i + 1)).bind fun fc n =>
            (parseNT f .termdash ts n).bind fun td m =>
            .ok (.NonTerminal "TERMDASH" [.Terminal tok, fc, td]) m
          | .Plus => .ok (.NonTerminal "TERMDASH" [.Epsilon]) i
          | .Bclose => .ok (.NonTerminal "TERMDASH" [.Epsilon]) i
          | .Eof => .ok (.NonTerminal "TERMDASH" [.Epsilon]) i
          | _ => .perr ("Parse Error in TERMDASH: Expected '*', '+', ')', or EOF, found " ++ tokenDebug tok) := rfl

theorem parseNT_factor_eq (f : Nat) (ts : List Token) (i : Nat) :
    parseNT (f + 1) .factor ts i
      = match ts[i]? with
        | none => .panic
        | some tok =>
          match tok with
          | .Bopen =>
            (parseNT f .expr ts (i + 1)).bind fun e n =>
            match ts[n]? with
            | none => .panic
            | some tok2 =>
              if tok2 = Token.Bclose then
                .ok (.NonTerminal "FACTOR" [.Terminal tok, e, .Terminal tok2]) (n + 1)
              else
                .perr ("Parse Error in FACTOR: Expected ')', found " ++ tokenDebug tok2)
          | .Identifier _ => .ok (.NonTerminal "FACTOR" [.Terminal tok]) (i + 1)
          | .Number _ => .ok (.NonTerminal "FACTOR" [.Terminal tok]) (i + 1)
          | _ => .perr ("Parse Error in FACTOR: Expected '(', Identifier, or Number, found " ++ tokenDebug tok) := rfl

theorem PResult.bind_eq_ok {α β : Type} {r : PResult α} {f : α → Nat → PResult β}
    {b : β} {n : Nat} (h : r.bind f = .ok b n) :
    ∃ a m, r = .ok a m ∧ f a m = .ok b n := by
  cases r with
  | ok a m => exact ⟨a, m, rfl, h⟩
  | perr m => simp [PResult.bind] at h
  | panic => simp [PResult.bind] at h
  | noFuel => simp [PResult.bind] at h

theorem PResult.bind_eq_panic {α β : Type} {r : PResult α} {f : α → Nat → PResult β}
    (h : r.bind f = .panic) :
    r = .panic ∨ ∃ a m, r = .ok a m ∧ f a m = .panic := by
  cases r with
  | ok a m => exact Or.inr ⟨a, m, rfl, h⟩
  | perr m => simp [PResult.bind] at h
  | panic => exact Or.inl rfl
  | noFuel => simp [PResult.bind] at h

theorem PResult.bind_eq_noFuel {α β : Type} {r : PResult α} {f : α → Nat → PResult β}
    (h : r.bind f = .noFuel) :
    r = .noFuel ∨ ∃ a m, r = .ok a m ∧ f a m = .noFuel := by
  cases r with
  | ok a m => exact Or.inr ⟨a, m, rfl, h⟩
  | perr m => simp [PResult.bind] at h
  | panic => simp [PResult.bind] at h
  | noFuel => exact Or.inl rfl

theorem PResult.bind_eq_perr {α β : Type} {r : PResult α} {f : α → Nat → PResult β}
    {msg : String} (h : r.bind f = .perr msg) :
    r = .perr msg ∨ ∃ a m, r = .ok a m ∧ f a m = .perr msg := by
  cases r with
  | ok a m => exact Or.inr ⟨a, m, rfl, h⟩
  | perr m =>
    simp only [PResult.bind, PResult.perr.injEq] at h
    exact Or.inl (by rw [h])
  | panic => simp [PResult.bind] at h
  | noFuel => simp [PResult.bind] at h

theorem parseNT_progress : ∀ (fuel : Nat) (tag : NT) (ts : List Token) (i : Nat)
    (a : ParseNode) (n : Nat), parseNT fuel tag ts i = .ok a n → i + minStep tag ≤ n := by
  intro fuel
  induction fuel with
  | zero => intro tag ts i a n h; rw [parseNT_zero] at h; exact absurd h (by simp)
  | succ f ih =>
    intro tag ts i a n h
    cases tag with
    | expr =>
      rw [parseNT_expr_eq] at h
      obtain ⟨t, n1, ht, h⟩ := PResult.bind_eq_ok h
      obtain ⟨e, n2, he, h⟩ := PResult.bind_eq_ok h
      injection h with h1 h2
      subst h2
      have p1 := ih .term ts i t n1 ht
      have p2 := ih .exprdash ts n1 e n2 he
      simp [minStep] at p1 p2 ⊢
      omega
    | exprdash =>
      rw [parseNT_exprdash_eq] at h
      cases hp : ts[i]? with
      | none => rw [hp] at h; exact absurd h (by simp)
      | some tok =>
        rw [hp] at h
        cases tok with
        | Plus =>
          simp only [] at h
          obtain ⟨tm, n1, htm, h⟩ := PResult.bind_eq_ok h
          obtain ⟨ed, n2, hed, h⟩ := PResult.bind_eq_ok h
          injection h with h1 h2
          subst h2
          have p1 := ih .term ts (i + 1) tm n1 htm
          have p2 := ih .exprdash ts n1 ed n2 hed
          simp [minStep] at p1 p2 ⊢
          omega
        | Bclose =>
          simp only [] at h
          injection h with h1 h2
          subst h2
          simp [minStep]
        | Eof =>
          simp only [] at h
          injection h with h1 h2
          subst h2
          simp [minStep]
        | Identifier s => exact absurd h (by simp)
        | Number s => exact absurd h (by simp)
        | Star => exact absurd h (by simp)
        | Bopen => exact absurd h (by simp)
    | term =>
      rw [parseNT_term_eq] at h
      obtain ⟨fc, n1, hfc, h⟩ := PResult.bind_eq_ok h
      obtain ⟨td, n2, htd, h⟩ := PResult.bind_eq_ok h
      injection h with h1 h2
      subst h2
      have p1 := ih .factor ts i fc n1 hfc
      have p2 := ih .termdash ts n1 td n2 htd
      simp [minStep] at p1 p2 ⊢
      omega
    | termdash =>
      rw [parseNT_termdash_eq] at h
      cases hp : ts[i]? with
      | none => rw [hp] at h; exact absurd h (by simp)
      | some tok =>
        rw [hp] at h
        cases tok with
        | Star =>
          simp only [] at h
          obtain ⟨fc, n1, hfc, h⟩ := PResult.bind_eq_ok h
          obtain ⟨td, n2, htd, h⟩ := PResult.bind_eq_ok h
          injection h with h1 h2
          subst h2
          have p1 := ih .factor ts (i + 1) fc n1 hfc
          have p2 := ih .termdash ts n1 td n2 htd
          simp [minStep] at p1 p2 ⊢
          omega
        | Plus =>
          simp only [] at h
          injection h with h1 h2
          subst h2
          simp [minStep]
        | Bclose =>
          simp only [] at h
          injection h with h1 h2
          subst h2
          simp [minStep]
        | Eof =>
          simp only [] at h
          injection h with h1 h2
          subst h2
          simp [minStep]
        | Identifier s => exact absurd h (by simp)
        | Number s => exact absurd h (by simp)
        | Bopen => exact absurd h (by simp)
    | factor =>
      rw [parseNT_factor_eq] at h
      cases hp : ts[i]? with
      | none => rw [hp] at h; exact absurd h (by simp)
      | some tok =>
        rw [hp] at h
        cases tok with
        | Bopen =>
          simp only [] at h
          obtain ⟨e, n1, he, h⟩ := PResult.bind_eq_ok h
          cases hp2 : ts[n1]? with
          | none => rw [hp2] at h; exact absurd h (by simp)
          | some tok2 =>
            rw [hp2] at h
            simp only [] at h
            by_cases hb : tok2 = Token.Bclose
            · rw [if_pos hb] at h
              injection h with h1 h2
              subst h2
              have p1 := ih .expr ts (i + 1) e n1 he
              simp [minStep] at p1 ⊢
              omega
            · rw [if_neg hb] at h
              exact absurd h (by simp)
        | Identifier s =>
          simp only [] at h
          injection h with h1 h2
          subst h2
          simp [minStep]
        | Number s =>
          simp only [] at h
          injection h with h1 h2
          subst h2
          simp [minStep]
        | Plus => exact absurd h (by simp)
        | Star => exact absurd h (by simp)
        | Bclose => exact absurd h (by simp)
        | Eof => exact absurd h (by simp)

theorem last_eof_lookahead {ts : List Token} {i : Nat} {t : Token}
    (hlast : ts.getLast? = some Token.Eof) (hp : ts[i]? = some t)
    (ht : t ≠ Token.Eof) : i + 1 < ts.length := by
  have hi : i < ts.length := (List.getElem?_eq_some_iff.mp hp).1
  by_contra hcon
  have hieq : i = ts.length - 1 := by omega
  rw [List.getLast?_eq_getElem?] at hlast
  rw [← hieq] at hlast
  rw [hp] at hlast
  exact ht (by injection hlast)

theorem parseNT_noPanic : ∀ (fuel : Nat) (tag : NT) (ts : List Token) (i : Nat),
    ts.getLast? = some Token.Eof → i < ts.length →
    parseNT fuel tag ts i ≠ .panic
    ∧ (∀ a n, parseNT fuel tag ts i = .ok a n → n < ts.length) := by
  intro fuel
  induction fuel with
  | zero =>
    intro tag ts i _ _
    rw [parseNT_zero]
    exact ⟨(by simp), fun a n h => absurd h (by simp)⟩
  | succ f ih =>
    intro tag ts i hlast hi
    cases tag with
    | expr =>
      rw [parseNT_expr_eq]
      constructor
      · intro h
        rcases PResult.bind_eq_panic h with hterm | ⟨t, n1, ht, h⟩
        · exact (ih .term ts i hlast hi).1 hterm
        · have hn1 : n1 < ts.length := (ih .term ts i hlast hi).2 t n1 ht
          rcases PResult.bind_eq_panic h with hed | ⟨e, n2, he, h⟩
          · exact (ih .exprdash ts n1 hlast hn1).1 hed
          · exact absurd h (by simp)
      · intro a n h
        obtain ⟨t, n1, ht, h⟩ := PResult.bind_eq_ok h
        have hn1 : n1 < ts.length := (ih .term ts i hlast hi).2 t n1 ht
        obtain ⟨e, n2, he, h⟩ := PResult.bind_eq_ok h
        injection h with h1 h2
        subst h2
        exact (ih .exprdash ts n1 hlast hn1).2 e n2 he
    | exprdash =>
      obtain ⟨tok, hp⟩ : ∃ tok, ts[i]? = some tok := ⟨ts[i], List.getElem?_eq_getElem hi⟩
      rw [parseNT_exprdash_eq, hp]
      cases tok with
      | Plus =>
        have hi1 : i + 1 < ts.length := last_eof_lookahead hlast hp (by simp)
        simp only []
        constructor
        · intro h
          rcases PResult.bind_eq_panic h with hterm | ⟨tm, n1, htm, h⟩
          · exact (ih .term ts (i + 1) hlast hi1).1 hterm
          · have hn1 := (ih .term ts (i + 1) hlast hi1).2 tm n1 htm
            rcases PResult.bind_eq_panic h with hed | ⟨ed, n2, hed2, h⟩
            · exact (ih .exprdash ts n1 hlast hn1).1 hed
            · exact absurd h (by simp)
        · intro a n h
          obtain ⟨tm, n1, htm, h⟩ := PResult.bind_eq_ok h
          have hn1 := (ih .term ts (i + 1) hlast hi1).2 tm n1 htm
          obtain ⟨ed, n2, hed2, h⟩ := PResult.bind_eq_ok h
          injection h with h1 h2
          subst h2
          exact (ih .exprdash ts n1 hlast hn1).2 ed n2 hed2
      | Bclose =>
        simp only []
        exact ⟨(by simp), fun a n h => by injection h with h1 h2; omega⟩
      | Eof =>
        simp only []
        exact ⟨(by simp), fun a n h => by injection h with h1 h2; omega⟩
      | Identifier s =>
        exact ⟨(by simp), fun a n h => absurd h (by simp)⟩
      | Number s =>
        exact ⟨(by simp), fun a n h => absurd h (by simp)⟩
      | Star =>
        exact ⟨(by simp), fun a n h => absurd h (by simp)⟩
      | Bopen =>
        exact ⟨(by simp), fun a n h => absurd h (by simp)⟩
    | term =>
      rw [parseNT_term_eq]
      constructor
      · intro h
        rcases PResult.bind_eq_panic h with hfc | ⟨fc, n1, hfc, h⟩
        · exact (ih .factor ts i hlast hi).1 hfc
        · have hn1 : n1 < ts.length := (ih .factor ts i hlast hi).2 fc n1 hfc
          rcases PResult.bind_eq_panic h with htd | ⟨td, n2, htd, h⟩
          · exact (ih .termdash ts n1 hlast hn1).1 htd
          · exact absurd h (by simp)
      · intro a n h
        obtain ⟨fc, n1, hfc, h⟩ := PResult.bind_eq_ok h
        have hn1 : n1 < ts.length := (ih .factor ts i hlast hi).2 fc n1 hfc
        obtain ⟨td, n2, htd, h⟩ := PResult.bind_eq_ok h
        injection h with h1 h2
        subst h2
        exact (ih .termdash ts n1 hlast hn1).2 td n2 htd
    | termdash =>
      obtain ⟨tok, hp⟩ : ∃ tok, ts[i]? = some tok := ⟨ts[i], List.getElem?_eq_getElem hi⟩
      rw [parseNT_termdash_eq, hp]
      cases tok with
      | Star =>
        have hi1 : i + 1 < ts.length := last_eof_lookahead hlast hp (by simp)
        simp only []
        constructor
        · intro h
          rcases PResult.bind_eq_panic h with hfc | ⟨fc, n1, hfc, h⟩
          · exact (ih .factor ts (i + 1) hlast hi1).1 hfc
          · have hn1 := (ih .factor ts (i + 1) hlast hi1).2 fc n1 hfc
            rcases PResult.bind_eq_panic h with htd | ⟨td, n2, htd2, h⟩
            · exact (ih .termdash ts n1 hlast hn1).1 htd
            · exact absurd h (by simp)
        · intro a n h
          obtain ⟨fc, n1, hfc, h⟩ := PResult.bind_eq_ok h
          have hn1 := (ih .factor ts (i + 1) hlast hi1).2 fc n1 hfc
          obtain ⟨td, n2, htd2, h⟩ := PResult.bind_eq_ok h
          injection h with h1 h2
          subst h2
          exact (ih .termdash ts n1 hlast hn1).2 td n2 htd2
      | Plus =>
        simp only []
        exact ⟨(by simp), fun a n h => by injection h with h1 h2; omega⟩
      | Bclose =>
        simp only []
        exact ⟨(by simp), fun a n h => by injection h with h1 h2; omega⟩
      | Eof =>
        simp only []
        exact ⟨(by simp), fun a n h => by injection h with h1 h2; omega⟩
      | Identifier s =>
        exact ⟨(by simp), fun a n h => absurd h (by simp)⟩
      | Number s =>
        exact ⟨(by simp), fun a n h => absurd h (by simp)⟩
      | Bopen =>
        exact ⟨(by simp), fun a n h => absurd h (by simp)⟩
    | factor =>
      obtain ⟨tok, hp⟩ : ∃ tok, ts[i]? = some tok := ⟨ts[i], List.getElem?_eq_getElem hi⟩
      rw [parseNT_factor_eq, hp]
      cases tok with
      | Bopen =>
        have hi1 : i + 1 < ts.length := last_eof_lookahead hlast hp (by simp)
        simp only []
        constructor
        · intro h
          rcases PResult.bind_eq_panic h with hex | ⟨e, n1, he, h⟩
          · exact (ih .expr ts (i + 1) hlast hi1).1 hex
          · have hn1 := (ih .expr ts (i + 1) hlast hi1).2 e n1 he
            obtain ⟨tok2, hp2⟩ : ∃ tok2, ts[n1]? = some tok2 :=
              ⟨ts[n1], List.getElem?_eq_getElem hn1⟩
            rw [hp2] at h
            simp only [] at h
            by_cases hb : tok2 = Token.Bclose
            · rw [if_pos hb] at h; exact absurd h (by simp)
            · rw [if_neg hb] at h; exact absurd h (by simp)
        · intro a n h
          obtain ⟨e, n1, he, h⟩ := PResult.bind_eq_ok h
          have hn1 := (ih .expr ts (i + 1) hlast hi1).2 e n1 he
          obtain ⟨tok2, hp2⟩ : ∃ tok2, ts[n1]? = some tok2 :=
            ⟨ts[n1], List.getElem?_eq_getElem hn1⟩
          rw [hp2] at h
          simp only [] at h
          by_cases hb : tok2 = Token.Bclose
          · rw [if_pos hb] at h
            injection h with h1 h2
            have hcl := last_eof_lookahead hlast hp2 (by rw [hb]; simp)
            omega
          · rw [if_neg hb] at h
            exact absurd h (by simp)
      | Identifier s =>
        have hi1 : i + 1 < ts.length := last_eof_lookahead hlast hp (by simp)
        simp only []
        exact ⟨(by simp), fun a n h => by injection h with h1 h2; omega⟩
      | Number s =>
        have hi1 : i + 1 < ts.length := last_eof_lookahead hlast hp (by simp)
        simp only []
        exact ⟨(by simp), fun a n h => by injection h with h1 h2; omega⟩
      | Plus =>
        exact ⟨(by simp), fun a n h => absurd h (by simp)⟩
      | Star =>
        exact ⟨(by simp), fun a n h => absurd h (by simp)⟩
      | Bclose =>
        exact ⟨(by simp), fun a n h => absurd h (by simp)⟩
      | Eof =>
        exact ⟨(by simp), fun a n h => absurd h (by simp)⟩

theorem parseNT_shaped : ∀ (fuel : Nat) (tag : NT) (ts : List Token) (i : Nat)
    (a : ParseNode) (n : Nat), parseNT fuel tag ts i = .ok a n → wellShaped a = true := by
  intro fuel
  induction fuel with
  | zero => intro tag ts i a n h; rw [parseNT_zero] at h; exact absurd h (by simp)
  | succ f ih =>
    intro tag ts i a n h
    cases tag with
    | expr =>
      rw [parseNT_expr_eq] at h
      obtain ⟨t, n1, ht, h⟩ := PResult.bind_eq_ok h
      obtain ⟨e, n2, he, h⟩ := PResult.bind_eq_ok h
      injection h with h1 h2
      subst h1
      have w1 := ih .term ts i t n1 ht
      have w2 := ih .exprdash ts n1 e n2 he
      simp [wellShaped, wellShapedList, productionShape, w1, w2]
    | exprdash =>
      rw [parseNT_exprdash_eq] at h
      cases hp : ts[i]? with
      | none => rw [hp] at h; exact absurd h (by simp)
      | some tok =>
        rw [hp] at h
        cases tok with
        | Plus =>
          simp only [] at h
          obtain ⟨tm, n1, htm, h⟩ := PResult.bind_eq_ok h
          obtain ⟨ed, n2, hed, h⟩ := PResult.bind_eq_ok h
          injection h with h1 h2
          subst h1
          have w1 := ih .term ts (i + 1) tm n1 htm
          have w2 := ih .exprdash ts n1 ed n2 hed
          simp [wellShaped, wellShapedList, productionShape, w1, w2]
        | Bclose =>
          simp only [] at h
          injection h with h1 h2
          subst h1
          simp [wellShaped, wellShapedList, productionShape]
        | Eof =>
          simp only [] at h
          injection h with h1 h2
          subst h1
          simp [wellShaped, wellShapedList, productionShape]
        | Identifier s => exact absurd h (by simp)
        | Number s => exact absurd h (by simp)
        | Star => exact absurd h (by simp)
        | Bopen => exact absurd h (by simp)
    | term =>
      rw [parseNT_term_eq] at h
      obtain ⟨fc, n1, hfc, h⟩ := PResult.bind_eq_ok h
      obtain ⟨td, n2, htd, h⟩ := PResult.bind_eq_ok h
      injection h with h1 h2
      subst h1
      have w1 := ih .factor ts i fc n1 hfc
      have w2 := ih .termdash ts n1 td n2 htd
      simp [wellShaped, wellShapedList, productionShape, w1, w2]
    | termdash =>
      rw [parseNT_termdash_eq] at h
      cases hp : ts[i]? with
      | none => rw [hp] at h; exact absurd h (by simp)
      | some tok =>
        rw [hp] at h
        cases tok with
        | Star =>
          simp only [] at h
          obtain ⟨fc, n1, hfc, h⟩ := PResult.bind_eq_ok h
          obtain ⟨td, n2, htd, h⟩ := PResult.bind_eq_ok h
          injection h with h1 h2
          subst h1
          have w1 := ih .factor ts (i + 1) fc n1 hfc
          have w2 := ih .termdash ts n1 td n2 htd
          simp [wellShaped, wellShapedList, productionShape, w1, w2]
        | Plus =>
          simp only [] at h
          injection h with h1 h2
          subst h1
          simp [wellShaped, wellShapedList, productionShape]
        | Bclose =>
          simp only [] at h
          injection h with h1 h2
          subst h1
          simp [wellShaped, wellShapedList, productionShape]
        | Eof =>
          simp only [] at h
          injection h with h1 h2
          subst h1
          simp [wellShaped, wellShapedList, productionShape]
        | Identifier s => exact absurd h (by simp)
        | Number s => exact absurd h (by simp)
        | Bopen => exact absurd h (by simp)
    | factor =>
      rw [parseNT_factor_eq] at h
      cases hp : ts[i]? with
      | none => rw [hp] at h; exact absurd h (by simp)
      | some tok =>
        rw [hp] at h
        cases tok with
        | Bopen =>
          simp only [] at h
          obtain ⟨e, n1, he, h⟩ := PResult.bind_eq_ok h
          cases hp2 : ts[n1]? with
          | none => rw [hp2] at h; exact absurd h (by simp)
          | some tok2 =>
            rw [hp2] at h
            simp only [] at h
            by_cases hb : tok2 = Token.Bclose
            · rw [if_pos hb] at h
              injection h with h1 h2
              subst h1
              have w1 := ih .expr ts (i + 1) e n1 he
              simp [wellShaped, wellShapedList, productionShape, w1]
            · rw [if_neg hb] at h
              exact absurd h (by simp)
        | Identifier s =>
          simp only [] at h
          injection h with h1 h2
          subst h1
          simp [wellShaped, wellShapedList, productionShape]
        | Number s =>
          simp only [] at h
          injection h with h1 h2
          subst h1
          simp [wellShaped, wellShapedList, productionShape]
        | Plus => exact absurd h (by simp)
        | Star => exact absurd h (by simp)
        | Bclose => exact absurd h (by simp)
        | Eof => exact absurd h (by simp)

theorem parseNT_noFuel : ∀ (fuel : Nat) (tag : NT) (ts : List Token) (i : Nat),
    needFuel tag (ts.length - i) ≤ fuel → parseNT fuel tag ts i ≠ .noFuel := by
  intro fuel
  induction fuel with
  | zero =>
    intro tag ts i hf
    exfalso
    cases tag <;> (simp only [needFuel] at hf; omega)
  | succ f ih =>
    intro tag ts i hf
    cases tag with
    | expr =>
      rw [parseNT_expr_eq]
      intro h
      rcases PResult.bind_eq_noFuel h with hterm | ⟨t, n1, ht, h⟩
      · exact ih .term ts i (by simp only [needFuel] at hf ⊢; omega) hterm
      · have p1 := parseNT_progress f .term ts i t n1 ht
        simp only [minStep] at p1
        have hsub : ts.length - n1 ≤ ts.length - (i + 1) :=
          Nat.sub_le_sub_left (by omega) _
        rcases PResult.bind_eq_noFuel h with hed | ⟨e, n2, he, h⟩
        · exact ih .exprdash ts n1 (by simp only [needFuel] at hf ⊢; omega) hed
        · exact absurd h (by simp)
    | exprdash =>
      rw [parseNT_exprdash_eq]
      cases hp : ts[i]? with
      | none => simp
      | some tok =>
        have hi : i < ts.length := (List.getElem?_eq_some_iff.mp hp).1
        cases tok with
        | Plus =>
          simp only []
          intro h
          rcases PResult.bind_eq_noFuel h with hterm | ⟨tm, n1, htm, h⟩
          · exact ih .term ts (i + 1) (by simp only [needFuel] at hf ⊢; omega) hterm
          · have p1 := parseNT_progress f .term ts (i + 1) tm n1 htm
            simp only [minStep] at p1
            have hsub : ts.length - n1 ≤ ts.length - (i + 2) :=
              Nat.sub_le_sub_left (by omega) _
            rcases PResult.bind_eq_noFuel h with hed | ⟨ed, n2, hed2, h⟩
            · exact ih .exprdash ts n1 (by simp only [needFuel] at hf ⊢; omega) hed
            · exact absurd h (by simp)
        | Bclose => simp
        | Eof => simp
        | Identifier s => simp
        | Number s => simp
        | Star => simp
        | Bopen => simp
    | term =>
      rw [parseNT_term_eq]
      intro h
      rcases PResult.bind_eq_noFuel h with hfc | ⟨fc, n1, hfc, h⟩
      · exact ih .factor ts i (by simp only [needFuel] at hf ⊢; omega) hfc
      · have p1 := parseNT_progress f .factor ts i fc n1 hfc
        simp only [minStep] at p1
        have hsub : ts.length - n1 ≤ ts.length - (i + 1) :=
          Nat.sub_le_sub_left (by omega) _
        rcases PResult.bind_eq_noFuel h with htd | ⟨td, n2, htd2, h⟩
        · exact ih .termdash ts n1 (by simp only [needFuel] at hf ⊢; omega) htd
        · exact absurd h (by simp)
    | termdash =>
      rw [parseNT_termdash_eq]
      cases hp : ts[i]? with
      | none => simp
      | some tok =>
        have hi : i < ts.length := (List.getElem?_eq_some_iff.mp hp).1
        cases tok with
        | Star =>
          simp only []
          intro h
          rcases PResult.bind_eq_noFuel h with hfc | ⟨fc, n1, hfc, h⟩
          · exact ih .factor ts (i + 1) (by simp only [needFuel] at hf ⊢; omega) hfc
          · have p1 := parseNT_progress f .factor ts (i + 1) fc n1 hfc
            simp only [minStep] at p1
            have hsub : ts.length - n1 ≤ ts.length - (i + 2) :=
              Nat.sub_le_sub_left (by omega) _
            rcases PResult.bind_eq_noFuel h with htd | ⟨td, n2, htd2, h⟩
            · exact ih .termdash ts n1 (by simp only [needFuel] at hf ⊢; omega) htd
            · exact absurd h (by simp)
        | Plus => simp
        | Bclose => simp
        | Eof => simp
        | Identifier s => simp
        | Number s => simp
        | Bopen => simp
    | factor =>
      rw [parseNT_factor_eq]
      cases hp : ts[i]? with
      | none => simp
      | some tok =>
        have hi : i < ts.length := (List.getElem?_eq_some_iff.mp hp).1
        cases tok with
        | Bopen =>
          simp only []
          intro h
          rcases PResult.bind_eq_noFuel h with hex | ⟨e, n1, he, h⟩
          · exact ih .expr ts (i + 1) (by simp only [needFuel] at hf ⊢; omega) hex
          · cases hp2 : ts[n1]? with
            | none => rw [hp2] at h; exact absurd h (by simp)
            | some tok2 =>
              rw [hp2] at h
              simp only [] at h
              by_cases hb : tok2 = Token.Bclose
              · rw [if_pos hb] at h; exact absurd h (by simp)
              · rw [if_neg hb] at h; exact absurd h (by simp)
        | Identifier s => simp
        | Number s => simp
        | Plus => simp
        | Star => simp
        | Bclose => simp
        | Eof => simp

theorem parse_not_noFuel {ts : List Token} {fuel : Nat}
    (hf : 3 * ts.length + 3 ≤ fuel) : parse fuel ts ≠ .noFuel := by
  rw [parse]
  intro h
  rcases PResult.bind_eq_noFuel h with hex | ⟨root, n, hroot, h⟩
  · exact parseNT_noFuel fuel .expr ts 0 (by simp only [needFuel]; omega) hex
  · cases hp : ts[n]? with
    | none => rw [hp] at h; exact absurd h (by simp)
    | some tok =>
      rw [hp] at h
      simp only [] at h
      by_cases hb : tok = Token.Eof
      · rw [if_pos hb] at h; exact absurd h (by simp)
      · rw [if_neg hb] at h; exact absurd h (by simp)

theorem parseNT_exprdash_lookahead : ∀ (fuel : Nat) (ts : List Token) (i : Nat)
    (a : ParseNode) (n : Nat), parseNT fuel .exprdash ts i = .ok a n →
    ts[n]? = some Token.Bclose ∨ ts[n]? = some Token.Eof := by
  intro fuel
  induction fuel with
  | zero => intro ts i a n h; rw [parseNT_zero] at h; exact absurd h (by simp)
  | succ f ih =>
    intro ts i a n h
    rw [parseNT_exprdash_eq] at h
    cases hp : ts[i]? with
    | none => rw [hp] at h; exact absurd h (by simp)
    | some tok =>
      rw [hp] at h
      cases tok with
      | Plus =>
        simp only [] at h
        obtain ⟨tm, n1, htm, h⟩ := PResult.bind_eq_ok h
        obtain ⟨ed, n2, hed, h⟩ := PResult.bind_eq_ok h
        injection h with h1 h2
        subst h2
        exact ih ts n1 ed n2 hed
      | Bclose =>
        simp only [] at h
        injection h with h1 h2
        subst h2
        exact Or.inl hp
      | Eof =>
        simp only [] at h
        injection h with h1 h2
        subst h2
        exact Or.inr hp
      | Identifier s => exact absurd h (by simp)
      | Number s => exact absurd h (by simp)
      | Star => exact absurd h (by simp)
      | Bopen => exact absurd h (by simp)

theorem parseNT_expr_lookahead (fuel : Nat) (ts : List Token) (i : Nat)
    (a : ParseNode) (n : Nat) (h : parseNT fuel .expr ts i = .ok a n) :
    ts[n]? = some Token.Bclose ∨ ts[n]? = some Token.Eof := by
  cases fuel with
  | zero => rw [parseNT_zero] at h; exact absurd h (by simp)
  | succ f =>
    rw [parseNT_expr_eq] at h
    obtain ⟨t, n1, ht, h⟩ := PResult.bind_eq_ok h
    obtain ⟨e, n2, he, h⟩ := PResult.bind_eq_ok h
    injection h with h1 h2
    subst h2
    exact parseNT_exprdash_lookahead f ts n1 e n2 he

theorem ParseNode.size_pos : ∀ (n : ParseNode), 0 < n.size := by
  intro n
  cases n <;> simp [ParseNode.size]

theorem sizeList_append : ∀ (a b : List ParseNode),
    ParseNode.sizeList (a ++ b) = ParseNode.sizeList a + ParseNode.sizeList b := by
  intro a b
  induction a with
  | nil => simp [ParseNode.sizeList]
  | cons x xs ih =>
    show ParseNode.sizeList (x :: (xs ++ b)) = ParseNode.sizeList (x :: xs) + ParseNode.sizeList b
    rw [show ParseNode.sizeList (x :: (xs ++ b)) = x.size + ParseNode.sizeList (xs ++ b) from rfl,
        show ParseNode.sizeList (x :: xs) = x.size + ParseNode.sizeList xs from rfl, ih]
    omega

theorem sizeList_childrenOf (n : ParseNode) :
    ParseNode.sizeList (childrenOf n) + 1 = n.size := by
  cases n <;> simp [childrenOf, ParseNode.size, ParseNode.sizeList, Nat.add_comm]

theorem sizeList_nextLevel : ∀ (q : List ParseNode),
    ParseNode.sizeList (nextLevel q) + q.length = ParseNode.sizeList q := by
  intro q
  induction q with
  | nil => simp [nextLevel, ParseNode.sizeList]
  | cons x xs ih =>
    simp only [nextLevel, ParseNode.sizeList, sizeList_append, List.length_cons]
    have := sizeList_childrenOf x
    omega

theorem bfs_join : ∀ (fuel : Nat) (q : List ParseNode),
    to_bfs_string_fuel fuel q = renderLevels (bfs_levels_fuel fuel q) := by
  intro fuel
  induction fuel with
  | zero => intro q; rfl
  | succ f ih =>
    intro q
    cases q with
    | nil => rfl
    | cons x xs =>
      show String.intercalate " " ((x :: xs).map nodeLabel) ++ "\n"
            ++ to_bfs_string_fuel f (nextLevel (x :: xs))
          = String.intercalate " " ((x :: xs).map nodeLabel) ++ "\n"
            ++ renderLevels (bfs_levels_fuel f (nextLevel (x :: xs)))
      rw [ih]

theorem bfs_count : ∀ (fuel : Nat) (q : List ParseNode), ParseNode.sizeList q ≤ fuel →
    ((bfs_levels_fuel fuel q).map List.length).sum = ParseNode.sizeList q := by
  intro fuel
  induction fuel with
  | zero =>
    intro q hq
    cases q with
    | nil => simp [bfs_levels_fuel, ParseNode.sizeList]
    | cons x xs =>
      exfalso
      have := ParseNode.size_pos x
      simp only [ParseNode.sizeList] at hq
      omega
  | succ f ih =>
    intro q hq
    cases q with
    | nil => simp [bfs_levels_fuel, ParseNode.sizeList]
    | cons x xs =>
      have hnext := sizeList_nextLevel (x :: xs)
      have hle : ParseNode.sizeList (nextLevel (x :: xs)) ≤ f := by
        simp only [List.length_cons] at hnext
        omega
      show (((x :: xs).map nodeLabel).length :: ((bfs_levels_fuel f (nextLevel (x :: xs))).map List.length)).sum
          = ParseNode.sizeList (x :: xs)
      rw [List.sum_cons, List.length_map, ih _ hle]
      simp only [List.length_cons] at hnext ⊢
      omega

theorem bfs_levels_ne_nil : ∀ (fuel : Nat) (q : List ParseNode) (l : List String),
    l ∈ bfs_levels_fuel fuel q → l ≠ [] := by
  intro fuel
  induction fuel with
  | zero => intro q l h; simp [bfs_levels_fuel] at h
  | succ f ih =>
    intro q l h
    cases q with
    | nil => simp [bfs_levels_fuel] at h
    | cons x xs =>
      simp only [bfs_levels_fuel, List.mem_cons] at h
      rcases h with rfl | h
      · simp
      · exact ih _ l h

theorem sizeList_singleton (root : ParseNode) :
    ParseNode.sizeList [root] = root.size := by
  simp [ParseNode.sizeList]

/-- C1: for every token sequence that is non-empty, ends in Eof and has
Eof nowhere else, the top-level parse and every subroutine it invokes
never read or consume an index past the end of the sequence: the
out-of-bounds outcome (the panic branch of peek and consume) is
unreachable, for every fuel and at every in-bounds start position. -/
theorem claim_C1 : ∀ (ts : List Token), wfTokens ts = true →
    (∀ fuel, parse fuel ts ≠ .panic)
    ∧ (∀ fuel tag i, i < ts.length → parseNT fuel tag ts i ≠ .panic) := by
  intro ts hw
  have hlast : ts.getLast? = some Token.Eof := by
    simp only [wfTokens, Bool.and_eq_true, beq_iff_eq] at hw
    exact hw.1
  have hne : ts ≠ [] := by
    intro hnil
    rw [hnil] at hlast
    exact absurd hlast (by simp)
  have hpos : 0 < ts.length := List.length_pos.mpr hne
  constructor
  · intro fuel
    rw [parse]
    intro h
    rcases PResult.bind_eq_panic h with hex | ⟨root, n, hroot, h⟩
    · exact (parseNT_noPanic fuel .expr ts 0 hlast hpos).1 hex
    · have hn : n < ts.length := (parseNT_noPanic fuel .expr ts 0 hlast hpos).2 root n hroot
      obtain ⟨tok, hp⟩ : ∃ tok, ts[n]? = some tok := ⟨ts[n], List.getElem?_eq_getElem hn⟩
      rw [hp] at h
      simp only [] at h
      by_cases hb : tok = Token.Eof
      · rw [if_pos hb] at h; exact absurd h (by simp)
      · rw [if_neg hb] at h; exact absurd h (by simp)
  · intro fuel tag i hi
    exact (parseNT_noPanic fuel tag ts i hlast hi).1

theorem claim_C1_witness :
    wfTokens [Token.Identifier "x", Token.Eof] = true
    ∧ parse 5 [Token.Identifier "x", Token.Eof] ≠ .panic
    ∧ parseNT 5 .expr [Token.Identifier "x", Token.Eof] 0 ≠ .panic :=
  ⟨rfl, (claim_C1 [Token.Identifier "x", Token.Eof] rfl).1 5,
   (claim_C1 [Token.Identifier "x", Token.Eof] rfl).2 5 .expr 0 (by decide)⟩

/-- C2: for every input line, the scan succeeds (no lexical error) exactly
when the returned token sequence is non-empty with final element Eof; on
success Eof occurs exactly once, as the last element; on an unrecognized
character the returned sequence contains no Eof and the driver excludes
the line from parsing. -/
theorem claim_C2 : ∀ (cs : List Char),
    (scan_ok cs = true ↔ scan_all cs ≠ [] ∧ (scan_all cs).getLast? = some Token.Eof)
    ∧ (scan_ok cs = true → (scan_all cs).count Token.Eof = 1
        ∧ (scan_all cs).getLast? = some Token.Eof)
    ∧ (scan_ok cs = false → Token.Eof ∉ scan_all cs ∧ driver_skips (scan_all cs) = true) := by
  intro cs
  have shape := scanAllR_shape (cs.length + 1) cs
  refine ⟨⟨?_, ?_⟩, ?_, ?_⟩
  · intro h
    obtain ⟨pre, hpre, hmem⟩ := shape.1 h
    constructor
    · show (scanAllR (cs.length + 1) cs).1 ≠ []
      rw [hpre]; simp
    · show (scanAllR (cs.length + 1) cs).1.getLast? = some Token.Eof
      rw [hpre]; simp
  · rintro ⟨hne, hlast⟩
    by_contra hfalse
    have hf : scan_ok cs = false := Bool.eq_false_iff.mpr hfalse
    have hmem := shape.2 hf
    exact hmem (List.mem_of_mem_getLast? hlast)
  · intro h
    obtain ⟨pre, hpre, hmem⟩ := shape.1 h
    constructor
    · show (scanAllR (cs.length + 1) cs).1.count Token.Eof = 1
      rw [hpre, List.count_append, List.count_eq_zero.mpr hmem]
      rfl
    · show (scanAllR (cs.length + 1) cs).1.getLast? = some Token.Eof
      rw [hpre]; simp
  · intro h
    have hmem := shape.2 h
    refine ⟨hmem, ?_⟩
    show driver_skips (scanAllR (cs.length + 1) cs).1 = true
    simp only [driver_skips, Bool.or_eq_true, List.isEmpty_iff, Bool.not_eq_true',
      beq_eq_false_iff_ne, ne_eq]
    right
    intro heq
    exact hmem (List.mem_of_mem_getLast? heq)

theorem claim_C2_witness :
    scan_ok ("a#".toList) = false
    ∧ (Token.Eof ∉ scan_all ("a#".toList) ∧ driver_skips (scan_all ("a#".toList)) = true)
    ∧ scan_ok ("x".toList) = true
    ∧ ((scan_all ("x".toList)).count Token.Eof = 1
        ∧ (scan_all ("x".toList)).getLast? = some Token.Eof)
    ∧ (scan_all ("x".toList) ≠ [] ∧ (scan_all ("x".toList)).getLast? = some Token.Eof) :=
  ⟨rfl, (claim_C2 _).2.2 rfl, rfl, (claim_C2 _).2.1 rfl, (claim_C2 ("x".toList)).1.mp rfl⟩

/-- C3: the parse tree built from the input line x renders breadth-first
as the lines EXPR, then TERM EXPRDASH, then FACTOR TERMDASH EPSILON, then
IDENTIFIER(x) EPSILON, each level on its own line in left-to-right sibling
order; the EPSILON labels are the EXPRDASH leaf (third line) and the
TERMDASH leaf (final line). -/
theorem claim_C3 :
    scan_all ("x".toList) = [Token.Identifier "x", Token.Eof]
    ∧ parse 10 [Token.Identifier "x", Token.Eof] = .ok xTree 2
    ∧ ParseNode.to_bfs_string xTree
        = "EXPR\n" ++ "TERM EXPRDASH\n" ++ "FACTOR TERMDASH EPSILON\n"
          ++ "IDENTIFIER(x) EPSILON\n"
    ∧ bfsLevels xTree
        = [["EXPR"], ["TERM", "EXPRDASH"], ["FACTOR", "TERMDASH", "EPSILON"],
           ["IDENTIFIER(x)", "EPSILON"]] :=
  ⟨rfl, rfl, rfl, rfl⟩

/-- C4 counterexample: parsing the tokens of the line a b fails with the
error raised inside parse_termdash reporting Identifier("b"), which is not
the top-level extra-token error the claim asserts. -/
theorem claim_C4_counterexample :
    scan_all ("a b".toList) = [Token.Identifier "a", Token.Identifier "b", Token.Eof]
    ∧ parse 10 [Token.Identifier "a", Token.Identifier "b", Token.Eof]
        = .perr "Parse Error in TERMDASH: Expected '*', '+', ')', or EOF, found Identifier(\"b\")"
    ∧ "Parse Error in TERMDASH: Expected '*', '+', ')', or EOF, found Identifier(\"b\")"
        ≠ "Parse Error: Extra token found starting at " ++ tokenDebug (Token.Identifier "b") :=
  ⟨rfl, rfl, by decide⟩

/-- C4 amended: parsing the token sequence scanned from the input a b
(Identifier, Identifier, Eof) fails, and the error it returns is the
TERMDASH-subroutine parse error reporting Identifier("b") as the token
found, not the top-level extra-token error. -/
theorem claim_C4 :
    scan_all ("a b".toList) = [Token.Identifier "a", Token.Identifier "b", Token.Eof]
    ∧ parse 10 [Token.Identifier "a", Token.Identifier "b", Token.Eof]
        = .perr ("Parse Error in TERMDASH: Expected '*', '+', ')', or EOF, found "
            ++ tokenDebug (Token.Identifier "b")) :=
  ⟨rfl, rfl⟩

/-- C5: maximal munch: abc123 scans to Identifier("abc"), Number("123"),
Eof, and 123abc scans to Number("123"), Identifier("abc"), Eof; every
Identifier lexeme ever produced consists of ASCII letters only and every
Number lexeme of ASCII digits only, so neither class is extended by a
character of the other. -/
theorem claim_C5 :
    scan_all ("abc123".toList) = [Token.Identifier "abc", Token.Number "123", Token.Eof]
    ∧ scan_all ("123abc".toList) = [Token.Number "123", Token.Identifier "abc", Token.Eof]
    ∧ (∀ (cs : List Char) (s : String), Token.Identifier s ∈ scan_all cs →
        s.data.all is_ascii_alphabetic = true)
    ∧ (∀ (cs : List Char) (s : String), Token.Number s ∈ scan_all cs →
        s.data.all is_ascii_digit = true) := by
  refine ⟨rfl, rfl, ?_, ?_⟩
  · intro cs s hmem
    exact (scanAllR_lexeme _ cs _ hmem).1 s rfl
  · intro cs s hmem
    exact (scanAllR_lexeme _ cs _ hmem).2 s rfl

theorem claim_C5_witness :
    Token.Identifier "ab" ∈ scan_all ("ab 1".toList)
    ∧ "ab".data.all is_ascii_alphabetic = true
    ∧ Token.Number "1" ∈ scan_all ("ab 1".toList)
    ∧ "1".data.all is_ascii_digit = true :=
  ⟨by decide, claim_C5.2.2.1 ("ab 1".toList) "ab" (by decide),
   by decide, claim_C5.2.2.2 ("ab 1".toList) "1" (by decide)⟩

/-- C6: parsing the token sequence scanned from the input a+ (Identifier,
Plus, Eof) fails with the parse error produced in the FACTOR subroutine
reporting Eof as the unexpected token found. -/
theorem claim_C6 :
    scan_all ("a+".toList) = [Token.Identifier "a", Token.Plus, Token.Eof]
    ∧ parse 10 [Token.Identifier "a", Token.Plus, Token.Eof]
        = .perr ("Parse Error in FACTOR: Expected '(', Identifier, or Number, found "
            ++ tokenDebug Token.Eof) :=
  ⟨rfl, rfl⟩

/-- C7: every tree returned by a successful top-level parse is well
shaped: each NonTerminal has a non-empty children list, carries one of the
five grammar names, and its arity is determined by the production that
fired (EXPR and TERM have 2 children, EXPRDASH and TERMDASH have 3
children or the single child Epsilon, FACTOR has 3 children or a single
Terminal child). -/
theorem claim_C7 : ∀ (fuel : Nat) (ts : List Token) (a : ParseNode) (n : Nat),
    parse fuel ts = .ok a n → wellShaped a = true := by
  intro fuel ts a n h
  rw [parse] at h
  obtain ⟨root, n1, hroot, h⟩ := PResult.bind_eq_ok h
  cases hp : ts[n1]? with
  | none => rw [hp] at h; exact absurd h (by simp)
  | some tok =>
    rw [hp] at h
    simp only [] at h
    by_cases hb : tok = Token.Eof
    · rw [if_pos hb] at h
      injection h with h1 h2
      subst h1
      exact parseNT_shaped fuel .expr ts 0 root n1 hroot
    · rw [if_neg hb] at h
      exact absurd h (by simp)

theorem claim_C7_witness :
    parse 10 [Token.Identifier "x", Token.Eof] = .ok xTree 2
    ∧ wellShaped xTree = true :=
  ⟨rfl, claim_C7 10 [Token.Identifier "x", Token.Eof] xTree 2 rfl⟩

/-- C8: the scanner loop is insensitive to any fuel beyond the line length
(it terminates within length-plus-one iterations), and for every token
sequence ending in Eof the top-level parse is insensitive to fuel beyond
three units per token plus three (it terminates); moreover parse_term and
parse_factor consume at least one token whenever they succeed, which is
the progress fact behind the recursive calls of parse_exprdash,
parse_termdash and parse_factor. -/
theorem claim_C8 :
    (∀ (cs : List Char) (f g : Nat), cs.length < f → cs.length < g →
        scanAllR f cs = scanAllR g cs)
    ∧ (∀ (ts : List Token) (fuel : Nat), ts.getLast? = some Token.Eof →
        3 * ts.length + 3 ≤ fuel → parse fuel ts ≠ .noFuel)
    ∧ (∀ (fuel : Nat) (ts : List Token) (i : Nat) (a : ParseNode) (n : Nat),
        parse_term fuel ts i = .ok a n → i < n)
    ∧ (∀ (fuel : Nat) (ts : List Token) (i : Nat) (a : ParseNode) (n : Nat),
        parse_factor fuel ts i = .ok a n → i < n) := by
  refine ⟨?_, ?_, ?_, ?_⟩
  · intro cs f g hf hg
    exact scanAllR_stable cs.length f g cs le_rfl hf hg
  · intro ts fuel _ hf
    exact parse_not_noFuel hf
  · intro fuel ts i a n h
    have hp := parseNT_progress fuel .term ts i a n h
    simp only [minStep] at hp
    omega
  · intro fuel ts i a n h
    have hp := parseNT_progress fuel .factor ts i a n h
    simp only [minStep] at hp
    omega

theorem claim_C8_witness :
    scanAllR 2 ("x".toList) = scanAllR 3 ("x".toList)
    ∧ parse 9 [Token.Identifier "x", Token.Eof] ≠ .noFuel
    ∧ (0 : Nat) < 1 :=
  ⟨claim_C8.1 ("x".toList) 2 3 (by decide) (by decide),
   claim_C8.2.1 [Token.Identifier "x", Token.Eof] 9 rfl (by decide),
   claim_C8.2.2.1 5 [Token.Identifier "x", Token.Eof] 0
     (.NonTerminal "TERM"
       [.NonTerminal "FACTOR" [.Terminal (.Identifier "x")],
        .NonTerminal "TERMDASH" [.Epsilon]]) 1 rfl⟩

/-- C9: parse_exprdash returns successfully only when the lookahead token
at its final position is Bclose or Eof; consequently, after a successful
top-level EXPR the lookahead is Bclose or Eof, an Eof lookahead makes the
top-level parse succeed, a Bclose lookahead produces exactly the
extra-token error reporting Bclose, and any failure inside the EXPR (for
example on a trailing second identifier) is propagated unchanged, never
reported as an extra-token error. -/
theorem claim_C9 :
    (∀ (fuel : Nat) (ts : List Token) (i : Nat) (a : ParseNode) (n : Nat),
        parse_exprdash fuel ts i = .ok a n →
        ts[n]? = some Token.Bclose ∨ ts[n]? = some Token.Eof)
    ∧ (∀ (fuel : Nat) (ts : List Token) (a : ParseNode) (n : Nat),
        parse_expr fuel ts 0 = .ok a n →
        (ts[n]? = some Token.Eof → parse fuel ts = .ok a (n + 1))
        ∧ (ts[n]? ≠ some Token.Eof →
            ts[n]? = some Token.Bclose
            ∧ parse fuel ts
                = .perr ("Parse Error: Extra token found starting at "
                    ++ tokenDebug Token.Bclose)))
    ∧ (∀ (fuel : Nat) (ts : List Token) (msg : String),
        parse_expr fuel ts 0 = .perr msg → parse fuel ts = .perr msg) := by
  refine ⟨?_, ?_, ?_⟩
  · intro fuel ts i a n h
    exact parseNT_exprdash_lookahead fuel ts i a n h
  · intro fuel ts a n h
    constructor
    · intro he
      rw [parse, show parseNT fuel NT.expr ts 0 = PResult.ok a n from h]
      simp only [PResult.bind]
      rw [he]
      simp
    · intro hne
      have hl := parseNT_expr_lookahead fuel ts 0 a n h
      have hb : ts[n]? = some Token.Bclose := by
        rcases hl with hb | he
        · exact hb
        · exact absurd he hne
      refine ⟨hb, ?_⟩
      rw [parse, show parseNT fuel NT.expr ts 0 = PResult.ok a n from h]
      simp only [PResult.bind]
      rw [hb]
      simp
  · intro fuel ts msg h
    rw [parse, show parseNT fuel NT.expr ts 0 = PResult.perr msg from h]
    rfl

theorem claim_C9_witness :
    ([Token.Identifier "a", Token.Bclose, Token.Eof][1]? = some Token.Bclose
      ∨ [Token.Identifier "a", Token.Bclose, Token.Eof][1]? = some Token.Eof)
    ∧ parse 10 [Token.Identifier "a", Token.Bclose, Token.Eof]
        = .perr ("Parse Error: Extra token found starting at " ++ tokenDebug Token.Bclose)
    ∧ parse 10 [Token.Identifier "a", Token.Identifier "b", Token.Eof]
        = .perr "Parse Error in TERMDASH: Expected '*', '+', ')', or EOF, found Identifier(\"b\")" :=
  ⟨claim_C9.1 10 [Token.Identifier "a", Token.Bclose, Token.Eof] 1
      (.NonTerminal "EXPRDASH" [.Epsilon]) 1 rfl,
   ((claim_C9.2.1 10 [Token.Identifier "a", Token.Bclose, Token.Eof]
      (.NonTerminal "EXPR"
        [.NonTerminal "TERM"
          [.NonTerminal "FACTOR" [.Terminal (.Identifier "a")],
           .NonTerminal "TERMDASH" [.Epsilon]],
         .NonTerminal "EXPRDASH" [.Epsilon]]) 1 rfl).2 (by decide)).2,
   claim_C9.2.2 10 [Token.Identifier "a", Token.Identifier "b", Token.Eof]
     "Parse Error in TERMDASH: Expected '*', '+', ')', or EOF, found Identifier(\"b\")" rfl⟩

/-- C10: to_bfs_string emits exactly one label per node: it renders, level
by level, the breadth-first label levels of the tree (each non-empty line
space-joined and terminated by one newline, labels in left-to-right child
order of the previous level), and the total number of labels over all
levels equals the number of nodes of the tree. -/
theorem claim_C10 : ∀ (root : ParseNode),
    ParseNode.to_bfs_string root = renderLevels (bfsLevels root)
    ∧ ((bfsLevels root).map List.length).sum = root.size
    ∧ (∀ l ∈ bfsLevels root, l ≠ []) := by
  intro root
  refine ⟨?_, ?_, ?_⟩
  · exact bfs_join root.size [root]
  · have hc := bfs_count root.size [root] (by rw [sizeList_singleton])
    rw [sizeList_singleton] at hc
    exact hc
  · intro l hl
    exact bfs_levels_ne_nil root.size [root] l hl

theorem claim_C10_witness :
    ParseNode.to_bfs_string ParseNode.Epsilon = renderLevels (bfsLevels ParseNode.Epsilon)
    ∧ ((bfsLevels ParseNode.Epsilon).map List.length).sum = ParseNode.size ParseNode.Epsilon
    ∧ ["EPSILON"] ≠ ([] : List String) :=
  ⟨(claim_C10 ParseNode.Epsilon).1, (claim_C10 ParseNode.Epsilon).2.1,
   (claim_C10 ParseNode.Epsilon).2.2 ["EPSILON"] (by decide)⟩

end ScanParse
